import Mathlib

/-!
Verification of the content-processing core of the AI-customer-support-agent
repository (file `src/content_processor.py`), against its natural-language
specification.

Python strings are embedded as `List Char` (`PyStr`); Python's `str.split()`,
`str.strip()`, `str.split('.')`, `' '.join`, `'.'.join`, `str.lower()`,
substring tests (`in`) and `str.count` are embedded as executable Lean
functions below.  Loops (`while` loops of `create_chunks` and the shrink
loop) are embedded as fuel-based structural recursions, with fuel chosen to
dominate the loop's iteration count (each iteration strictly decreases the
measure by at least one, as proven below), so that kernel evaluation on
concrete inputs works by `decide`/`rfl`.
-/

/-- Python strings as character lists. -/
abbrev PyStr := List Char

/-- The whitespace set of Python's `str.split()` / `str.strip()`
(space, tab, newline, carriage return, vertical tab, form feed). -/
def pyIsSpace (c : Char) : Bool :=
  c == ' ' || c == '\t' || c == '\n' || c == '\r' || c == '\x0b' || c == '\x0c'

/-- Accumulator worker for `str.split()` (split on whitespace runs, drop empties). -/
def splitWsAux : PyStr → PyStr → List PyStr
  | [], acc => if acc = [] then [] else [acc.reverse]
  | c :: cs, acc =>
    if pyIsSpace c then
      if acc = [] then splitWsAux cs [] else acc.reverse :: splitWsAux cs []
    else splitWsAux cs (c :: acc)

/-- Python `s.split()`: whitespace-delimited words, empties dropped. -/
def splitWs (s : PyStr) : List PyStr := splitWsAux s []

/-- Python `' '.join(ws)`. -/
def joinWords : List PyStr → PyStr
  | [] => []
  | [w] => w
  | w :: v :: ws => w ++ ' ' :: joinWords (v :: ws)

/-- Python `s.strip()`: drop leading and trailing whitespace. -/
def pyStrip (s : PyStr) : PyStr :=
  ((s.dropWhile pyIsSpace).reverse.dropWhile pyIsSpace).reverse

/-- Accumulator worker for `s.split('.')` (keeps empty pieces, like Python). -/
def splitDotAux : PyStr → PyStr → List PyStr
  | [], acc => [acc.reverse]
  | c :: cs, acc =>
    if c = '.' then acc.reverse :: splitDotAux cs [] else splitDotAux cs (c :: acc)

/-- Python `s.split('.')`. -/
def splitDot (s : PyStr) : List PyStr := splitDotAux s []

/-- Python `'.'.join(ts)`. -/
def joinDots : List PyStr → PyStr
  | [] => []
  | [t] => t
  | t :: u :: ts => t ++ '.' :: joinDots (u :: ts)

/-- The sentence-boundary trim of `create_chunks` (lines 241-245 of
`content_processor.py`): `sentences = chunk_content.split('.')`; if more than
one sentence, keep `'.'.join(sentences[:-1]) + '.'`. -/
def sentenceTrim (cc : PyStr) : PyStr :=
  let sentences := splitDot cc
  if 1 < sentences.length then joinDots sentences.dropLast ++ ['.'] else cc

/-- Fuel-based worker for the shrink loop of `create_chunks` (lines 233-236):
`while len(chunk_content) > chunk_size and len(chunk_words) > 1: drop last word`.
Each iteration drops one word, so `fuel = ws.length` dominates the iteration
count. -/
def shrinkWordsGo (cs : ℕ) : ℕ → List PyStr → List PyStr
  | 0, ws => ws
  | fuel + 1, ws =>
    if cs < (joinWords ws).length ∧ 1 < ws.length then shrinkWordsGo cs fuel ws.dropLast
    else ws

/-- The shrink loop of `create_chunks`. -/
def shrinkWords (cs : ℕ) (ws : List PyStr) : List PyStr := shrinkWordsGo cs ws.length ws

/-- The start-index advance of `create_chunks` (line 270):
`start_idx = max(start_idx + words_per_chunk - overlap_words, start_idx + 1)`.
Python evaluates `start_idx + words_per_chunk - overlap_words` over ℤ; when it
is negative the `max` picks `start_idx + 1`, and ℕ truncated subtraction gives
`0`, for which the `max` also picks `start_idx + 1` — so the ℕ form agrees. -/
def advance (wpc ow s : ℕ) : ℕ := max (s + wpc - ow) (s + 1)

/-- Decimal digit to character. -/
def digitChar (d : ℕ) : Char := Char.ofNat (48 + d)

/-- Python `repr` of a natural number (decimal digits, most significant first). -/
def natRepr (n : ℕ) : PyStr :=
  if n = 0 then ['0'] else (Nat.digits 10 n).reverse.map digitChar

/-- Python `f"\x7bn:03d\x7d"`: decimal digits left-padded with `'0'` to width 3. -/
def pad3 (n : ℕ) : PyStr := List.replicate (3 - (natRepr n).length) '0' ++ natRepr n

/-- Character to decimal digit value. -/
def charVal (c : Char) : ℕ := c.toNat - 48

/-- Decode a decimal digit string back to a natural number
(left inverse of `pad3`, used to prove chunk-id uniqueness). -/
def decodeDigits (s : PyStr) : ℕ := Nat.ofDigits 10 (s.reverse.map charVal)

/-- Chunk identifier `f"\x7burl\x7d_chunk_\x7bnum:03d\x7d"` (lines 203 and 249). -/
def mkChunkId (url : PyStr) (num : ℕ) : PyStr := url ++ "_chunk_".data ++ pad3 num

/-- ASCII lower-casing, the fragment of Python `str.lower()` exercised here. -/
def lowerChar (c : Char) : Char :=
  if 'A' ≤ c ∧ c ≤ 'Z' then Char.ofNat (c.toNat + 32) else c

/-- Python `s.lower()`. -/
def pyLower (s : PyStr) : PyStr := s.map lowerChar

/-- Python substring test `needle in hay`. -/
def isSubstr (needle : PyStr) : PyStr → Bool
  | [] => needle.isEmpty
  | c :: rest => needle.isPrefixOf (c :: rest) || isSubstr needle rest

/-- Fuel-based worker for Python `hay.count(needle)` (non-overlapping). -/
def countOccGo (needle : PyStr) : ℕ → PyStr → ℕ
  | 0, _ => 0
  | _, [] => 0
  | fuel + 1, c :: rest =>
    if needle.isPrefixOf (c :: rest) then
      1 + countOccGo needle fuel (rest.drop (needle.length - 1))
    else countOccGo needle fuel rest

/-- Python `hay.count(needle)` for a non-empty needle (only instantiated at
`"q:"` in the source). -/
def countOcc (needle hay : PyStr) : ℕ :=
  if needle = [] then 0 else countOccGo needle hay.length hay

/-- A heading record as stored in the metadata dict (lines 92-96). -/
structure HeadingInfo where
  level : ℕ
  text : PyStr
  id : PyStr
  deriving DecidableEq, Repr

/-- An in-domain link record (lines 108-112). -/
structure LinkInfo where
  url : PyStr
  text : PyStr
  title : PyStr
  deriving DecidableEq, Repr

/-- The metadata dict built by `extract_metadata` (lines 54-65), as consumed
by `create_chunks` and `process_content`. -/
structure PageMetadata where
  url : PyStr
  title : PyStr
  description : PyStr
  keywords : List PyStr
  headings : List HeadingInfo
  links : List LinkInfo
  content_type : PyStr
  word_count : ℕ
  char_count : ℕ
  language : PyStr
  deriving DecidableEq, Repr

/-- The `TextChunk` dataclass (lines 15-32); `keywords = None` is normalized
to `[]` by `__post_init__`, embedded as the default value. -/
structure TextChunk where
  content : PyStr
  chunk_id : PyStr
  source_url : PyStr
  title : PyStr
  chunk_index : ℕ
  total_chunks : ℕ
  word_count : ℕ
  char_count : ℕ
  section_title : Option PyStr := none
  content_type : Option PyStr := none
  keywords : List PyStr := []
  deriving DecidableEq, Repr

/-- Chunking configuration of `ContentProcessor.__init__` (line 37). -/
structure ContentProcessor where
  chunk_size : ℕ := 1000
  overlap_size : ℕ := 100
  min_chunk_size : ℕ := 100
  deriving DecidableEq, Repr

/-- `_detect_content_type` (lines 117-142). -/
def detectContentType (html_content url : PyStr) : PyStr :=
  let html_lower := pyLower html_content
  let url_lower := pyLower url
  if isSubstr "faq".data url_lower || isSubstr "frequently-asked".data url_lower then
    "faq".data
  else if isSubstr "guide".data url_lower || isSubstr "tutorial".data url_lower ||
      isSubstr "how-to".data url_lower then "guide".data
  else if isSubstr "troubleshoot".data url_lower || isSubstr "problem".data url_lower ||
      isSubstr "fix".data url_lower then "troubleshooting".data
  else if isSubstr "getting-started".data url_lower || isSubstr "setup".data url_lower ||
      isSubstr "install".data url_lower then "getting_started".data
  else if isSubstr "api".data url_lower || isSubstr "reference".data url_lower ||
      isSubstr "documentation".data url_lower then "documentation".data
  else if isSubstr "frequently asked questions".data html_lower ||
      decide (3 < countOcc "q:".data html_lower) then "faq".data
  else if isSubstr "step 1".data html_lower || isSubstr "first step".data html_lower ||
      isSubstr "getting started".data html_lower then "guide".data
  else if isSubstr "error".data html_lower || isSubstr "troubleshoot".data html_lower ||
      isSubstr "problem".data html_lower || isSubstr "issue".data html_lower then
    "troubleshooting".data
  else "support_article".data

/-- `_extract_section_title` (lines 279-288): first heading whose lowered text
is a substring of the chunk's first 200 (lowered) characters, or that shares
any word with that prefix string. -/
def extractSectionTitle (chunk_content : PyStr) : List HeadingInfo → Option PyStr
  | [] => none
  | h :: rest =>
    let chunk_start := pyLower (chunk_content.take 200)
    let heading_text := pyLower h.text
    if isSubstr heading_text chunk_start ||
        (splitWs heading_text).any (fun w => isSubstr w chunk_start) then some h.text
    else extractSectionTitle chunk_content rest

/-- Construction of one loop-body chunk of `create_chunks` (lines 240-262):
sentence trim when the window does not reach the end, then the `TextChunk`
constructor call; `content` is the stripped text, while `word_count`,
`char_count` and the section title are computed from the unstripped text,
exactly as in the source. -/
def mkLoopChunk (meta : PageMetadata) (chunkContent : PyStr)
    (endIdx totalWords num : ℕ) : TextChunk :=
  let finalContent := if endIdx < totalWords then sentenceTrim chunkContent else chunkContent
  { content := pyStrip finalContent
    chunk_id := mkChunkId meta.url num
    source_url := meta.url
    title := meta.title
    chunk_index := num
    total_chunks := 0
    word_count := (splitWs finalContent).length
    char_count := finalContent.length
    section_title := extractSectionTitle finalContent meta.headings
    content_type := some meta.content_type
    keywords := meta.keywords }

/-- Fuel-based worker for the main `while start_idx < total_words` loop of
`create_chunks` (lines 225-270).  Each iteration strictly increases the start
index (see `advance`), so `fuel = totalWords` dominates the iteration count
from `start = 0`. -/
def chunksLoopGo (P : ContentProcessor) (meta : PageMetadata) (words : List PyStr)
    (totalWords wpc ow : ℕ) : ℕ → ℕ → ℕ → List TextChunk
  | 0, _, _ => []
  | fuel + 1, start, num =>
    if start < totalWords then
      let endIdx := min (start + wpc) totalWords
      let chunkContent :=
        joinWords (shrinkWords P.chunk_size ((words.drop start).take (endIdx - start)))
      if P.min_chunk_size ≤ chunkContent.length ∨ endIdx = totalWords then
        if endIdx = totalWords then [mkLoopChunk meta chunkContent endIdx totalWords num]
        else mkLoopChunk meta chunkContent endIdx totalWords num ::
          chunksLoopGo P meta words totalWords wpc ow fuel (advance wpc ow start) (num + 1)
      else
        if endIdx = totalWords then []
        else chunksLoopGo P meta words totalWords wpc ow fuel (advance wpc ow start) num
    else []

/-- `create_chunks` (lines 197-277): short-page path, else the word-windowing
loop followed by the second pass that writes `total_chunks` into every chunk. -/
def createChunks (P : ContentProcessor) (meta : PageMetadata) (content : PyStr) :
    List TextChunk :=
  if content.length ≤ P.chunk_size then
    [{ content := content
       chunk_id := mkChunkId meta.url 1
       source_url := meta.url
       title := meta.title
       chunk_index := 1
       total_chunks := 1
       word_count := (splitWs content).length
       char_count := content.length
       content_type := some meta.content_type
       keywords := meta.keywords }]
  else
    let words := splitWs content
    let totalWords := words.length
    let wpc := P.chunk_size / 5
    let ow := P.overlap_size / 5
    let built := chunksLoopGo P meta words totalWords wpc ow totalWords 0 1
    built.map (fun c => { c with total_chunks := built.length })

/-- The start indices visited by the `create_chunks` loop, with the same
entry condition (`start < total_words`) and the same break condition
(`end_idx == total_words`) as `chunksLoopGo`. -/
def loopStartsGo (wpc ow totalWords : ℕ) : ℕ → ℕ → List ℕ
  | 0, _ => []
  | fuel + 1, start =>
    if start < totalWords then
      start ::
        (if min (start + wpc) totalWords = totalWords then []
         else loopStartsGo wpc ow totalWords fuel (advance wpc ow start))
    else []

/-- The start indices visited by the `create_chunks` loop from `start = 0`. -/
def loopStarts (wpc ow totalWords : ℕ) : List ℕ :=
  loopStartsGo wpc ow totalWords totalWords 0

/-- A raw heading element of a parsed HTML document; the document itself is
abstracted as the list of its heading elements in document order, and
BeautifulSoup's `find_all('h<k>')` as a filter on the level (it returns the
matching elements in document order). -/
structure RawHeading where
  level : ℕ
  text : PyStr
  id : Option PyStr
  deriving DecidableEq, Repr

/-- The record appended for one heading (lines 92-96): level, trimmed text,
and `heading.get('id', '')`. -/
def headingEntry (h : RawHeading) : HeadingInfo :=
  { level := h.level, text := pyStrip h.text, id := h.id.getD [] }

/-- The heading extraction of `extract_metadata` (lines 88-97):
`for level in range(1, 7): for heading in soup.find_all(f'h\x7blevel\x7d')`. -/
def extractHeadings (doc : List RawHeading) : List HeadingInfo :=
  (List.range' 1 6).flatMap fun lv =>
    (doc.filter (fun h => h.level = lv)).map headingEntry

/-- The result shape of `process_content` (lines 303-319): a success dict or
a failure dict carrying the error message and the source url. -/
inductive ProcessResult where
  | success (metadata : PageMetadata) (content : PyStr) (chunks : List TextChunk)
      (total_chunks : ℕ) (total_words : ℕ) (total_chars : ℕ)
  | failure (error : PyStr) (url : PyStr)
  deriving DecidableEq, Repr

/-- `process_content` (lines 290-319).  The three pipeline stages call
external parsing libraries and may raise; they are abstracted as arbitrary
fallible functions (`Except`), and the `try/except` boundary is embedded as
the match on each stage's result.  On success `word_count` is rewritten from
the normalized text (line 298) before chunking, and the success record carries
`len(chunks)`, the rewritten word count, and `len(clean_content)`. -/
def processContent (extractStage : PyStr → PyStr → Except PyStr PageMetadata)
    (cleanStage : PyStr → Except PyStr PyStr)
    (chunkStage : PyStr → PageMetadata → Except PyStr (List TextChunk))
    (html url : PyStr) : ProcessResult :=
  match extractStage html url with
  | .error e => .failure e url
  | .ok md =>
    match cleanStage html with
    | .error e => .failure e url
    | .ok clean =>
      let md2 := { md with word_count := (splitWs clean).length }
      match chunkStage clean md2 with
      | .error e => .failure e url
      | .ok chunks =>
        .success md2 clean chunks chunks.length md2.word_count clean.length

/-- A concrete metadata value for counterexamples and witnesses. -/
def sampleMeta : PageMetadata :=
  { url := "https://example.com/page".data
    title := "Page".data
    description := []
    keywords := []
    headings := []
    links := []
    content_type := "support_article".data
    word_count := 0
    char_count := 0
    language := "en".data }

/-! ### Support lemmas: words produced by `splitWs` -/

/-- Every word produced by `splitWsAux` from a whitespace-free accumulator is
nonempty and whitespace-free. -/
theorem splitWsAux_mem (s : PyStr) : ∀ acc, (∀ c ∈ acc, pyIsSpace c = false) →
    ∀ w ∈ splitWsAux s acc, w ≠ [] ∧ ∀ c ∈ w, pyIsSpace c = false := by
  induction s with
  | nil =>
    intro acc hacc w hw
    simp only [splitWsAux] at hw
    split at hw
    · simp at hw
    · next hne =>
      simp only [List.mem_singleton] at hw
      subst hw
      refine ⟨by simpa using hne, ?_⟩
      intro c hc
      exact hacc c (List.mem_reverse.mp hc)
  | cons a s ih =>
    intro acc hacc w hw
    simp only [splitWsAux] at hw
    by_cases hsp : pyIsSpace a
    · rw [if_pos hsp] at hw
      split at hw
      · exact ih [] (by simp) w hw
      · next hne =>
        rcases List.mem_cons.mp hw with h | h
        · subst h
          exact ⟨by simpa using hne, fun c hc => hacc c (List.mem_reverse.mp hc)⟩
        · exact ih [] (by simp) w h
    · rw [if_neg hsp] at hw
      refine ih (a :: acc) ?_ w hw
      intro c hc
      rcases List.mem_cons.mp hc with h | h
      · subst h; simpa using hsp
      · exact hacc c h

/-- Every word of Python `s.split()` is nonempty and whitespace-free. -/
theorem splitWs_mem (s : PyStr) : ∀ w ∈ splitWs s, w ≠ [] ∧ ∀ c ∈ w, pyIsSpace c = false :=
  splitWsAux_mem s [] (by simp)

/-- On a whitespace-free string, `splitWsAux` returns the single remaining word. -/
theorem splitWsAux_of_nonspace (s : PyStr) (hs : ∀ c ∈ s, pyIsSpace c = false) :
    ∀ acc, splitWsAux s acc =
      if acc.reverse ++ s = [] then [] else [acc.reverse ++ s] := by
  induction s with
  | nil =>
    intro acc
    simp only [splitWsAux, List.append_nil]
    by_cases h : acc = []
    · subst h; simp
    · rw [if_neg h, if_neg (by simpa using h)]
  | cons a s ih =>
    intro acc
    have ha : pyIsSpace a = false := hs a (List.mem_cons_self a s)
    simp only [splitWsAux, ha, Bool.false_eq_true, if_false]
    rw [ih (fun c hc => hs c (List.mem_cons_of_mem a hc)) (a :: acc)]
    have : (a :: acc).reverse ++ s = acc.reverse ++ a :: s := by simp
    rw [this]

/-- Python `s.split()` of a whitespace-free string has at most one word. -/
theorem splitWs_length_le_one (s : PyStr) (hs : ∀ c ∈ s, pyIsSpace c = false) :
    (splitWs s).length ≤ 1 := by
  unfold splitWs
  rw [splitWsAux_of_nonspace s hs []]
  split <;> simp

/-! ### Support lemmas: `splitDot`, `joinDots`, `sentenceTrim` -/

/-- `splitDotAux` never returns the empty list. -/
theorem splitDotAux_ne_nil (s : PyStr) : ∀ acc, splitDotAux s acc ≠ [] := by
  induction s with
  | nil => intro acc; simp [splitDotAux]
  | cons a s ih =>
    intro acc
    simp only [splitDotAux]
    split
    · simp
    · exact ih (a :: acc)

/-- `joinDots` over a nonempty tail. -/
theorem joinDots_cons (x : PyStr) (l : List PyStr) (hl : l ≠ []) :
    joinDots (x :: l) = x ++ '.' :: joinDots l := by
  cases l with
  | nil => exact absurd rfl hl
  | cons u us => rfl

/-- Joining the pieces of `splitDotAux` with dots restores the input. -/
theorem joinDots_splitDotAux (s : PyStr) : ∀ acc,
    joinDots (splitDotAux s acc) = acc.reverse ++ s := by
  induction s with
  | nil => intro acc; simp [splitDotAux, joinDots]
  | cons a s ih =>
    intro acc
    simp only [splitDotAux]
    by_cases h : a = '.'
    · rw [if_pos h, joinDots_cons _ _ (splitDotAux_ne_nil s [])]
      have hs := ih []
      simp only [List.reverse_nil, List.nil_append] at hs
      rw [hs, h]
    · rw [if_neg h, ih (a :: acc)]
      simp

/-- Joining the pieces of Python `s.split('.')` with dots restores `s`. -/
theorem joinDots_splitDot (s : PyStr) : joinDots (splitDot s) = s := by
  simpa using joinDots_splitDotAux s []

/-- `joinDots` over a list extended by one final piece. -/
theorem joinDots_concat (l : List PyStr) (t : PyStr) (hl : l ≠ []) :
    joinDots (l ++ [t]) = joinDots l ++ '.' :: t := by
  induction l with
  | nil => exact absurd rfl hl
  | cons a l ih =>
    cases l with
    | nil => simp [joinDots]
    | cons b l' =>
      have : joinDots ((a :: b :: l') ++ [t]) = a ++ '.' :: joinDots ((b :: l') ++ [t]) := by
        simp [joinDots]
      rw [this, ih (by simp), joinDots]
      simp

/-- Structure of the sentence-boundary trim: either the content is returned
unchanged, or the result is the prefix of the content ending at its last
period. -/
theorem sentenceTrim_spec (cc : PyStr) :
    sentenceTrim cc = cc ∨
      ∃ xs ys, cc = xs ++ '.' :: ys ∧ sentenceTrim cc = xs ++ ['.'] := by
  unfold sentenceTrim
  by_cases h : 1 < (splitDot cc).length
  · right
    rw [if_pos h]
    have hne : (splitDot cc).dropLast ≠ [] := by
      have := List.length_dropLast (splitDot cc)
      intro hc
      rw [hc] at this
      simp at this
      omega
    have hsplit : (splitDot cc).dropLast ++ [(splitDot cc).getLast (by
        intro hc; rw [hc] at h; simp at h)] = splitDot cc :=
      List.dropLast_append_getLast _
    refine ⟨joinDots (splitDot cc).dropLast, (splitDot cc).getLast (by
        intro hc; rw [hc] at h; simp at h), ?_, rfl⟩
    conv_lhs => rw [← joinDots_splitDot cc, ← hsplit]
    rw [joinDots_concat _ _ hne]
  · left; rw [if_neg h]

/-- The sentence-boundary trim never lengthens the content. -/
theorem sentenceTrim_length_le (cc : PyStr) : (sentenceTrim cc).length ≤ cc.length := by
  rcases sentenceTrim_spec cc with h | ⟨xs, ys, hcc, ht⟩
  · rw [h]
  · rw [ht, hcc]; simp

/-! ### Support lemmas: `pyStrip` -/

/-- Dropping leading whitespace from a string that ends in a period leaves a
string that still ends in that period. -/
theorem dropWhile_space_concat_dot (xs : PyStr) :
    ∃ xs', (xs ++ ['.']).dropWhile pyIsSpace = xs' ++ ['.'] := by
  induction xs with
  | nil => exact ⟨[], rfl⟩
  | cons a xs ih =>
    by_cases h : pyIsSpace a
    · simpa [List.dropWhile, h] using ih
    · exact ⟨a :: xs, by simp [List.dropWhile, h]⟩

/-- Stripping a string that ends in a period leaves a string that ends in
that period. -/
theorem pyStrip_concat_dot (xs : PyStr) :
    (pyStrip (xs ++ ['.'])).getLast? = some '.' := by
  unfold pyStrip
  obtain ⟨xs', hxs'⟩ := dropWhile_space_concat_dot xs
  rw [hxs']
  have h1 : (xs' ++ ['.']).reverse = '.' :: xs'.reverse := by simp
  rw [h1]
  have h2 : ('.' :: xs'.reverse).dropWhile pyIsSpace = '.' :: xs'.reverse := by
    simp [List.dropWhile, pyIsSpace]
  rw [h2]
  have h3 : ('.' :: xs'.reverse).reverse = xs' ++ ['.'] := by simp
  rw [h3, List.getLast?_concat]

/-! ### Support lemmas: the shrink loop -/

/-- The shrink loop only ever drops words: its result is a subset of its input. -/
theorem shrinkWordsGo_subset (cs : ℕ) : ∀ fuel ws, shrinkWordsGo cs fuel ws ⊆ ws := by
  intro fuel
  induction fuel with
  | zero => intro ws; simp [shrinkWordsGo]
  | succ fuel ih =>
    intro ws
    simp only [shrinkWordsGo]
    split
    · exact fun x hx => List.dropLast_subset ws (ih ws.dropLast hx)
    · exact fun x hx => hx

/-- Result of the shrink loop given enough fuel: either the joined content
fits in `cs` characters, or a single word (or nothing) remains. -/
theorem shrinkWordsGo_post (cs : ℕ) : ∀ fuel ws, ws.length ≤ fuel + 1 →
    (joinWords (shrinkWordsGo cs fuel ws)).length ≤ cs ∨
      (shrinkWordsGo cs fuel ws).length ≤ 1 := by
  intro fuel
  induction fuel with
  | zero =>
    intro ws h
    right
    simpa [shrinkWordsGo] using h
  | succ fuel ih =>
    intro ws h
    simp only [shrinkWordsGo]
    split
    · next hcond =>
      refine ih ws.dropLast ?_
      have := List.length_dropLast ws
      omega
    · next hcond =>
      rcases Decidable.not_and_iff_or_not.mp hcond with h' | h'
      · left; omega
      · right; omega

/-- `shrinkWords` postcondition. -/
theorem shrinkWords_post (cs : ℕ) (ws : List PyStr) :
    (joinWords (shrinkWords cs ws)).length ≤ cs ∨ (shrinkWords cs ws).length ≤ 1 :=
  shrinkWordsGo_post cs ws.length ws (by omega)

/-- `shrinkWords` result is a subset of its input. -/
theorem shrinkWords_subset (cs : ℕ) (ws : List PyStr) : shrinkWords cs ws ⊆ ws :=
  shrinkWordsGo_subset cs ws.length ws

/-! ### Support lemmas: `pad3` is injective (chunk-id uniqueness) -/

/-- Digit characters decode back to their digit value. -/
theorem charVal_digitChar (d : ℕ) (hd : d < 10) : charVal (digitChar d) = d := by
  interval_cases d <;> rfl

/-- `Nat.ofDigits` of a block of zeros is zero. -/
theorem ofDigits_replicate_zero (k : ℕ) : Nat.ofDigits 10 (List.replicate k 0) = 0 := by
  induction k with
  | zero => rfl
  | succ k ih => simp [List.replicate_succ, Nat.ofDigits_cons, ih]

/-- Reversing `natRepr` and decoding each character yields the little-endian
digit list of `n` (with `[0]` for zero). -/
theorem natRepr_reverse_map_charVal (n : ℕ) :
    (natRepr n).reverse.map charVal = if n = 0 then [0] else Nat.digits 10 n := by
  unfold natRepr
  by_cases h : n = 0
  · rw [if_pos h, if_pos h]
    rfl
  · rw [if_neg h, if_neg h]
    simp only [List.map_reverse, List.reverse_reverse, List.map_map]
    conv_rhs => rw [← List.map_id (Nat.digits 10 n)]
    exact List.map_congr_left fun d hd =>
      charVal_digitChar d (Nat.digits_lt_base (by norm_num) hd)

/-- Decoding `pad3 n` (digits of `n` plus any zero left-padding) recovers `n`. -/
theorem decodeDigits_pad3 (n : ℕ) : decodeDigits (pad3 n) = n := by
  unfold decodeDigits pad3
  rw [List.reverse_append, List.reverse_replicate, List.map_append, List.map_replicate]
  have h0 : charVal '0' = 0 := rfl
  rw [h0, natRepr_reverse_map_charVal]
  by_cases h : n = 0
  · rw [if_pos h, Nat.ofDigits_append, ofDigits_replicate_zero]
    simp [Nat.ofDigits_cons, Nat.ofDigits_nil, h]
  · rw [if_neg h, Nat.ofDigits_append, ofDigits_replicate_zero, Nat.ofDigits_digits]
    simp

/-- `pad3` is injective: distinct chunk numbers give distinct padded digit
strings. -/
theorem pad3_injective : Function.Injective pad3 := by
  intro a b h
  have h2 := congrArg decodeDigits h
  rwa [decodeDigits_pad3, decodeDigits_pad3] at h2

/-- Chunk ids for the same url are injective in the chunk number. -/
theorem mkChunkId_right_injective (url : PyStr) {m n : ℕ}
    (h : mkChunkId url m = mkChunkId url n) : m = n := by
  unfold mkChunkId at h
  rw [List.append_assoc, List.append_assoc] at h
  exact pad3_injective (List.append_cancel_left (List.append_cancel_left h))

/-! ### Support lemmas: one loop-body chunk -/

/-- Char/word bound for one loop-body chunk: its character count fits in
`chunk_size`, or it consists of at most one word (the shrink loop cannot
split a single overlong word). -/
theorem mkLoopChunk_char_word (P : ContentProcessor) (meta : PageMetadata)
    (tw : List PyStr) (e N k : ℕ)
    (htw : ∀ w ∈ tw, ∀ ch ∈ w, pyIsSpace ch = false) :
    (mkLoopChunk meta (joinWords (shrinkWords P.chunk_size tw)) e N k).char_count ≤
        P.chunk_size ∨
      (mkLoopChunk meta (joinWords (shrinkWords P.chunk_size tw)) e N k).word_count ≤ 1 := by
  rcases shrinkWords_post P.chunk_size tw with hlen | hone
  · left
    simp only [mkLoopChunk]
    split
    · exact le_trans (sentenceTrim_length_le _) hlen
    · exact hlen
  · right
    simp only [mkLoopChunk]
    rcases hshr : shrinkWords P.chunk_size tw with _ | ⟨w, ws'⟩
    · have hnil : joinWords ([] : List PyStr) = [] := rfl
      rw [hnil]
      have htrim : sentenceTrim [] = [] := rfl
      split <;> simp [htrim, splitWs, splitWsAux]
    · have hws' : ws' = [] := by
        rw [hshr] at hone
        simp at hone
        exact hone
      subst hws'
      have hw : joinWords [w] = w := rfl
      rw [hw]
      have hwmem : w ∈ tw := shrinkWords_subset P.chunk_size tw (by rw [hshr]; simp)
      have hnws : ∀ ch ∈ w, pyIsSpace ch = false := htw w hwmem
      split
      · rcases sentenceTrim_spec w with h | ⟨xs, ys, hcc, ht⟩
        · rw [h]
          exact splitWs_length_le_one w hnws
        · rw [ht]
          refine splitWs_length_le_one _ ?_
          intro ch hch
          rcases List.mem_append.mp hch with h' | h'
          · exact hnws ch (by rw [hcc]; exact List.mem_append_left _ h')
          · have : ch = '.' := by simpa using h'
            subst this
            exact hnws '.' (by rw [hcc]; exact List.mem_append_right _ (by simp))
      · exact splitWs_length_le_one w hnws

/-- Minimum-size property of one loop-body chunk accepted before the end of
the text: either the stored `char_count` still meets the minimum, or the
sentence-boundary trim ran and the stored content ends in a period. -/
theorem mkLoopChunk_min_or_dot (P : ContentProcessor) (meta : PageMetadata)
    (cc : PyStr) (e N k : ℕ) (hmin : P.min_chunk_size ≤ cc.length) (he : e < N) :
    P.min_chunk_size ≤ (mkLoopChunk meta cc e N k).char_count ∨
      (mkLoopChunk meta cc e N k).content.getLast? = some '.' := by
  simp only [mkLoopChunk, if_pos he]
  rcases sentenceTrim_spec cc with h | ⟨xs, ys, hcc, ht⟩
  · rw [h]
    exact Or.inl hmin
  · rw [ht]
    exact Or.inr (pyStrip_concat_dot xs)

/-! ### Support lemmas: the main chunking loop -/

/-- Every chunk emitted by the loop fits in `chunk_size` characters or
consists of at most one word. -/
theorem chunksLoopGo_char_word (P : ContentProcessor) (meta : PageMetadata)
    (words : List PyStr) (N wpc ow : ℕ)
    (hwords : ∀ w ∈ words, ∀ ch ∈ w, pyIsSpace ch = false) :
    ∀ fuel start num, ∀ c ∈ chunksLoopGo P meta words N wpc ow fuel start num,
      c.char_count ≤ P.chunk_size ∨ c.word_count ≤ 1 := by
  intro fuel
  induction fuel with
  | zero => intro start num c hc; simp [chunksLoopGo] at hc
  | succ fuel ih =>
    intro start num c hc
    have htw : ∀ w ∈ (words.drop start).take (min (start + wpc) N - start),
        ∀ ch ∈ w, pyIsSpace ch = false := fun w hw =>
      hwords w (List.drop_subset start words (List.take_subset _ _ hw))
    simp only [chunksLoopGo] at hc
    split at hc
    · split at hc
      · split at hc
        · rw [List.mem_singleton] at hc
          subst hc
          exact mkLoopChunk_char_word P meta _ _ _ _ htw
        · rcases List.mem_cons.mp hc with h | h
          · subst h
            exact mkLoopChunk_char_word P meta _ _ _ _ htw
          · exact ih _ _ c h
      · split at hc
        · simp at hc
        · exact ih _ _ c hc
    · simp at hc

/-- Every chunk emitted by the loop other than the very last one either meets
the minimum size, or was shortened by the sentence-boundary trim and hence
ends in a period. -/
theorem chunksLoopGo_min_or_dot (P : ContentProcessor) (meta : PageMetadata)
    (words : List PyStr) (N wpc ow : ℕ) :
    ∀ fuel start num, ∀ c ∈ (chunksLoopGo P meta words N wpc ow fuel start num).dropLast,
      P.min_chunk_size ≤ c.char_count ∨ c.content.getLast? = some '.' := by
  intro fuel
  induction fuel with
  | zero => intro start num c hc; simp [chunksLoopGo] at hc
  | succ fuel ih =>
    intro start num c hc
    simp only [chunksLoopGo] at hc
    split at hc
    · next hlt =>
      split at hc
      · next hacc =>
        split at hc
        · next hend => simp at hc
        · next hend =>
          rcases hrec : chunksLoopGo P meta words N wpc ow fuel (advance wpc ow start)
              (num + 1) with _ | ⟨r, rs⟩
          · rw [hrec] at hc
            simp at hc
          · rw [hrec, List.dropLast_cons_of_ne_nil (by simp)] at hc
            rcases List.mem_cons.mp hc with h | h
            · subst h
              have hmin := hacc.resolve_right hend
              exact mkLoopChunk_min_or_dot P meta _ _ _ _ hmin
                (lt_of_le_of_ne (min_le_right _ _) hend)
            · rw [← hrec] at h
              exact ih _ _ c h
      · next hacc =>
        split at hc
        · simp at hc
        · exact ih _ _ c hc
    · simp at hc

/-- The chunk indices emitted by the loop starting at counter `num` are
exactly `num, num + 1, ...`. -/
theorem chunksLoopGo_map_index (P : ContentProcessor) (meta : PageMetadata)
    (words : List PyStr) (N wpc ow : ℕ) :
    ∀ fuel start num,
      (chunksLoopGo P meta words N wpc ow fuel start num).map TextChunk.chunk_index =
        List.range' num (chunksLoopGo P meta words N wpc ow fuel start num).length := by
  intro fuel
  induction fuel with
  | zero => intro start num; simp [chunksLoopGo]
  | succ fuel ih =>
    intro start num
    simp only [chunksLoopGo]
    split
    · split
      · split
        · simp [mkLoopChunk]
        · simp only [List.map_cons, List.length_cons, ih, List.range'_succ]
          simp [mkLoopChunk]
      · split
        · simp
        · exact ih _ _
    · simp

/-- Every chunk emitted by the loop carries the id formed from the page url
and its own index. -/
theorem chunksLoopGo_id (P : ContentProcessor) (meta : PageMetadata)
    (words : List PyStr) (N wpc ow : ℕ) :
    ∀ fuel start num, ∀ c ∈ chunksLoopGo P meta words N wpc ow fuel start num,
      c.chunk_id = mkChunkId meta.url c.chunk_index := by
  intro fuel
  induction fuel with
  | zero => intro start num c hc; simp [chunksLoopGo] at hc
  | succ fuel ih =>
    intro start num c hc
    simp only [chunksLoopGo] at hc
    split at hc
    · split at hc
      · split at hc
        · rw [List.mem_singleton] at hc
          subst hc
          simp [mkLoopChunk]
        · rcases List.mem_cons.mp hc with h | h
          · subst h
            simp [mkLoopChunk]
          · exact ih _ _ c h
      · split at hc
        · simp at hc
        · exact ih _ _ c hc
    · simp at hc

/-! ### Support lemmas: loop start indices -/

/-- The start index strictly increases on every loop iteration. -/
theorem lt_advance (wpc ow s : ℕ) : s < advance wpc ow s :=
  lt_of_lt_of_le (Nat.lt_succ_self s) (le_max_right _ _)

/-- The loop performs at most `fuel` iterations. -/
theorem loopStartsGo_length_le (wpc ow N : ℕ) :
    ∀ fuel start, (loopStartsGo wpc ow N fuel start).length ≤ fuel := by
  intro fuel
  induction fuel with
  | zero => intro start; simp [loopStartsGo]
  | succ fuel ih =>
    intro start
    simp only [loopStartsGo]
    split
    · split
      · simp
      · simp only [List.length_cons]
        exact Nat.succ_le_succ (ih _)
    · simp

/-- Window coverage: as long as windows are nonempty (`1 ≤ wpc`), every word
index below `N` lies inside the window of some visited start index. -/
theorem loopStartsGo_cover (wpc ow N : ℕ) (hw : 1 ≤ wpc) :
    ∀ fuel start i, N ≤ fuel + start → start ≤ i → i < N →
      ∃ s ∈ loopStartsGo wpc ow N fuel start, s ≤ i ∧ i < min (s + wpc) N := by
  intro fuel
  induction fuel with
  | zero =>
    intro start i h1 h2 h3
    exact absurd h3 (by omega)
  | succ fuel ih =>
    intro start i hfuel hsi hiN
    have hlt : start < N := lt_of_le_of_lt hsi hiN
    simp only [loopStartsGo, if_pos hlt]
    by_cases hbr : min (start + wpc) N = N
    · refine ⟨start, by simp [hbr], hsi, ?_⟩
      rw [hbr]
      exact hiN
    · by_cases hwin : i < start + wpc
      · exact ⟨start, by simp [hbr], hsi, lt_min hwin hiN⟩
      · have hadv_le : advance wpc ow start ≤ i := by
          have h1 : start + wpc ≤ i := le_of_not_lt hwin
          exact max_le (le_trans (Nat.sub_le _ _) h1) (by omega)
        have hfuel' : N ≤ fuel + advance wpc ow start := by
          have := lt_advance wpc ow start
          omega
        obtain ⟨s, hs, hsle, hslt⟩ := ih (advance wpc ow start) i hfuel' hadv_le hiN
        refine ⟨s, ?_, hsle, hslt⟩
        rw [if_neg hbr]
        exact List.mem_cons_of_mem start hs

/-! ### Support lemmas: heading extraction -/

/-- Every member of a per-level block has that level. -/
theorem mem_block_level (doc : List RawHeading) (lv : ℕ) (x : HeadingInfo)
    (hx : x ∈ (doc.filter (fun h => h.level = lv)).map headingEntry) : x.level = lv := by
  rcases List.mem_map.mp hx with ⟨h, hmem, rfl⟩
  have h2 := (List.mem_filter.mp hmem).2
  simpa [headingEntry] using h2

/-- Concatenating per-level blocks along a `<`-sorted level list yields a list
sorted by level. -/
theorem blocks_pairwise (doc : List RawHeading) :
    ∀ lvs : List ℕ, lvs.Pairwise (· < ·) →
      (lvs.flatMap fun lv => (doc.filter (fun h => h.level = lv)).map headingEntry).Pairwise
        (fun a b => a.level ≤ b.level) := by
  intro lvs
  induction lvs with
  | nil => intro _; simp
  | cons l ls ih =>
    intro hp
    rcases List.pairwise_cons.mp hp with ⟨hl, hls⟩
    rw [List.flatMap_cons, List.pairwise_append]
    refine ⟨?_, ih hls, ?_⟩
    · refine List.pairwise_of_forall_mem_list ?_
      intro a ha b hb
      rw [mem_block_level doc l a ha, mem_block_level doc l b hb]
    · intro a ha b hb
      rcases List.mem_flatMap.mp hb with ⟨lv, hlv, hblk⟩
      rw [mem_block_level doc l a ha, mem_block_level doc lv b hblk]
      exact le_of_lt (hl lv hlv)

/-- Filtering the concatenated blocks at one level recovers exactly that
level's block (for a duplicate-free level list). -/
theorem filter_blocks (doc : List RawHeading) (lv : ℕ) :
    ∀ lvs : List ℕ, lvs.Nodup →
      ((lvs.flatMap fun l => (doc.filter (fun h => h.level = l)).map headingEntry).filter
          (fun x => x.level = lv)) =
        if lv ∈ lvs then (doc.filter (fun h => h.level = lv)).map headingEntry else [] := by
  intro lvs
  induction lvs with
  | nil => intro _; simp
  | cons l ls ih =>
    intro hnd
    rcases List.nodup_cons.mp hnd with ⟨hlnot, hls⟩
    rw [List.flatMap_cons, List.filter_append, ih hls]
    by_cases he : l = lv
    · subst he
      have h1 : ((doc.filter (fun h => h.level = l)).map headingEntry).filter
          (fun x => x.level = l) = (doc.filter (fun h => h.level = l)).map headingEntry :=
        List.filter_eq_self.mpr fun x hx => by simp [mem_block_level doc l x hx]
      rw [h1, if_neg hlnot, if_pos (List.mem_cons_self l ls)]
      simp
    · have h1 : ((doc.filter (fun h => h.level = l)).map headingEntry).filter
          (fun x => x.level = lv) = [] :=
        List.filter_eq_nil_iff.mpr fun x hx => by
          simp [mem_block_level doc l x hx, he]
      rw [h1]
      by_cases hmem : lv ∈ ls
      · rw [if_pos hmem, if_pos (List.mem_cons_of_mem l hmem)]
        simp
      · rw [if_neg hmem, if_neg ?_]
        · simp
        · intro hcon
          rcases List.mem_cons.mp hcon with h | h
          · exact he h.symm
          · exact hmem h

/-! ### Concrete inputs for counterexamples and witnesses -/

/-- Configuration `chunk_size = 10, overlap_size = 0, min_chunk_size = 1`
(valid: min is at most the chunk size and the overlap is below it). -/
def procA : ContentProcessor := { chunk_size := 10, overlap_size := 0, min_chunk_size := 1 }

/-- Configuration `chunk_size = 10, overlap_size = 0, min_chunk_size = 6`. -/
def procB : ContentProcessor := { chunk_size := 10, overlap_size := 0, min_chunk_size := 6 }

/-- A 12-character word followed by the word `bb` (15 characters in all). -/
def textA : PyStr := List.replicate 12 'a' ++ " bb".data

/-- Text whose first window ends in a sentence fragment. -/
def textB : PyStr := "abcd. x eeeee".data

/-- A 10-character word followed by `bb` and `cc`. -/
def textC : PyStr := "aaaaaaaaaa bb cc".data

/-! ### C1 -/

/-- C1 (counterexample): for the not-yet-stripped text `" a"` (length 2, below
the default chunk size), the single chunk's content is `" a"` itself, not
`" a".strip() = "a"`: the short-page path of `create_chunks` applies no strip. -/
theorem c1_counterexample :
    " a".data.length ≤ ({} : ContentProcessor).chunk_size ∧
    (createChunks {} sampleMeta " a".data).map TextChunk.content = [" a".data] ∧
    pyStrip " a".data = "a".data ∧
    " a".data ≠ "a".data := by decide

/-- C1 (amended): for every text `T` with `len(T) <= chunk_size` and every
page metadata, `create_chunks` returns exactly one chunk whose content equals
`T` itself (unstripped), with `chunk_index = 1` and `total_chunks = 1`. -/
theorem c1_amended (P : ContentProcessor) (meta : PageMetadata) (T : PyStr)
    (h : T.length ≤ P.chunk_size) :
    (createChunks P meta T).map (fun c => (c.content, c.chunk_index, c.total_chunks)) =
      [(T, 1, 1)] := by
  simp [createChunks, h]

/-- C1 witness: the amended claim at the concrete input `" a"`. -/
theorem c1_amended_witness :
    " a".data.length ≤ ({} : ContentProcessor).chunk_size ∧
    (createChunks {} sampleMeta " a".data).map
      (fun c => (c.content, c.chunk_index, c.total_chunks)) = [(" a".data, 1, 1)] :=
  ⟨by decide, c1_amended {} sampleMeta " a".data (by decide)⟩

/-! ### C2 -/

/-- C2 (counterexample): with the valid configuration `procA`
(`min = 1 <= 10 = chunk_size`, `overlap = 0 < 10`) and the 15-character text
`textA` (`len > chunk_size`), the produced chunk has `char_count = 12 > 10`:
the shrink loop stops at one word, so a single overlong word escapes the
bound. -/
theorem c2_counterexample :
    procA.min_chunk_size ≤ procA.chunk_size ∧ procA.overlap_size < procA.chunk_size ∧
    procA.chunk_size < textA.length ∧
    (createChunks procA sampleMeta textA).map TextChunk.char_count = [12] ∧
    ¬ (∀ c ∈ createChunks procA sampleMeta textA, c.char_count ≤ procA.chunk_size) := by
  decide

/-- C2 (amended): for every configuration and every text, every chunk
produced by `create_chunks` has `char_count <= chunk_size` or consists of at
most one word (a single word longer than `chunk_size` is emitted unsplit). -/
theorem c2_amended (P : ContentProcessor) (meta : PageMetadata) (T : PyStr) :
    ∀ c ∈ createChunks P meta T, c.char_count ≤ P.chunk_size ∨ c.word_count ≤ 1 := by
  intro c hc
  simp only [createChunks] at hc
  split at hc
  · next h =>
    rw [List.mem_singleton] at hc
    subst hc
    exact Or.inl h
  · rcases List.mem_map.mp hc with ⟨c', hc', rfl⟩
    have h2 := chunksLoopGo_char_word P meta (splitWs T) (splitWs T).length
      (P.chunk_size / 5) (P.overlap_size / 5) (fun w hw => (splitWs_mem T w hw).2)
      (splitWs T).length 0 1 c' hc'
    simpa using h2

/-! ### C3 -/

/-- C3 (counterexample): with the valid configuration `procB` (`min = 6`)
and text `textB`, the first (non-final) chunk is accepted with pre-trim
length 7 but the sentence-boundary trim then cuts it to `"abcd."` with
`char_count = 5 < 6 = min_chunk_size`. -/
theorem c3_counterexample :
    procB.min_chunk_size ≤ procB.chunk_size ∧ procB.overlap_size < procB.chunk_size ∧
    (createChunks procB sampleMeta textB).map TextChunk.char_count = [5, 5] ∧
    ¬ (∀ c ∈ (createChunks procB sampleMeta textB).dropLast,
        procB.min_chunk_size ≤ c.char_count) := by
  decide

/-- C3 (amended): for every configuration and input, every chunk except
possibly the final one either has `char_count >= min_chunk_size` or ends in a
period — the min-size filter is checked before the sentence-boundary trim, so
a trimmed chunk (which always ends in `'.'`) may fall below the minimum. -/
theorem c3_amended (P : ContentProcessor) (meta : PageMetadata) (T : PyStr) :
    ∀ c ∈ (createChunks P meta T).dropLast,
      P.min_chunk_size ≤ c.char_count ∨ c.content.getLast? = some '.' := by
  intro c hc
  simp only [createChunks] at hc
  split at hc
  · simp at hc
  · rw [← List.map_dropLast] at hc
    rcases List.mem_map.mp hc with ⟨c', hc', rfl⟩
    have h2 := chunksLoopGo_min_or_dot P meta (splitWs T) (splitWs T).length
      (P.chunk_size / 5) (P.overlap_size / 5) (splitWs T).length 0 1 c' hc'
    simpa using h2

/-! ### C4 -/

/-- C4 (counterexample): with the valid configuration `procA` and text
`textC = "aaaaaaaaaa bb cc"`, the shrink loop drops `bb` from the first
window but the start index still advances past it, so the word `bb` appears
in no chunk at all. -/
theorem c4_counterexample :
    procA.min_chunk_size ≤ procA.chunk_size ∧ procA.overlap_size < procA.chunk_size ∧
    "bb".data ∈ splitWs textC ∧
    (createChunks procA sampleMeta textC).map TextChunk.content =
      ["aaaaaaaaaa".data, "cc".data] ∧
    ¬ (∀ w ∈ splitWs textC, ∃ c ∈ createChunks procA sampleMeta textC,
        w ∈ splitWs c.content) := by
  decide

/-- C4 (amended): every word index of the tokenized text lies inside at least
one candidate window examined by the chunking loop (whenever
`chunk_size >= 5`, so that windows are nonempty); words can nevertheless be
dropped from the emitted chunks by the shrink-to-fit step, the sentence trim,
or the min-size skip. -/
theorem c4_amended (P : ContentProcessor) (T : PyStr) (h5 : 5 ≤ P.chunk_size)
    (i : ℕ) (hi : i < (splitWs T).length) :
    ∃ s ∈ loopStarts (P.chunk_size / 5) (P.overlap_size / 5) (splitWs T).length,
      s ≤ i ∧ i < min (s + P.chunk_size / 5) (splitWs T).length := by
  have hw : 1 ≤ P.chunk_size / 5 := by
    rw [Nat.le_div_iff_mul_le (by norm_num)]
    omega
  exact loopStartsGo_cover (P.chunk_size / 5) (P.overlap_size / 5) (splitWs T).length hw
    (splitWs T).length 0 i (by omega) (Nat.zero_le i) hi

/-- C4 witness: the amended claim at a concrete three-word text, word index 2. -/
theorem c4_amended_witness :
    ∃ s ∈ loopStarts (({} : ContentProcessor).chunk_size / 5)
        (({} : ContentProcessor).overlap_size / 5) (splitWs "aa bb cc".data).length,
      s ≤ 2 ∧ 2 < min (s + ({} : ContentProcessor).chunk_size / 5)
        (splitWs "aa bb cc".data).length :=
  c4_amended {} "aa bb cc".data (by decide) 2 (by decide)

/-! ### C5 -/

/-- C5 (confirmed): for every configuration and input, the chunk sequence of
length `N` returned by `create_chunks` has `chunk_index` values exactly
`1..N` in order, `total_chunks = N` on every chunk, every `chunk_id` formed
as url plus `_chunk_` plus the zero-padded index, and pairwise-distinct
`chunk_id` values. -/
theorem c5_chunk_identity (P : ContentProcessor) (meta : PageMetadata) (T : PyStr) :
    (createChunks P meta T).map TextChunk.chunk_index =
      List.range' 1 (createChunks P meta T).length ∧
    (∀ c ∈ createChunks P meta T, c.total_chunks = (createChunks P meta T).length) ∧
    (∀ c ∈ createChunks P meta T, c.chunk_id = mkChunkId meta.url c.chunk_index) ∧
    ((createChunks P meta T).map TextChunk.chunk_id).Nodup := by
  simp only [createChunks]
  split
  · refine ⟨by simp [List.range'], ?_, ?_, by simp⟩
    · intro c hc
      rw [List.mem_singleton] at hc
      subst hc
      simp
    · intro c hc
      rw [List.mem_singleton] at hc
      subst hc
      simp
  · set L := chunksLoopGo P meta (splitWs T) (splitWs T).length (P.chunk_size / 5)
      (P.overlap_size / 5) (splitWs T).length 0 1 with hL
    have hidx : L.map TextChunk.chunk_index = List.range' 1 L.length := by
      rw [hL]
      exact chunksLoopGo_map_index P meta (splitWs T) (splitWs T).length
        (P.chunk_size / 5) (P.overlap_size / 5) (splitWs T).length 0 1
    have hid : ∀ c ∈ L, c.chunk_id = mkChunkId meta.url c.chunk_index := by
      rw [hL]
      exact chunksLoopGo_id P meta (splitWs T) (splitWs T).length
        (P.chunk_size / 5) (P.overlap_size / 5) (splitWs T).length 0 1
    have hcomp_idx : (TextChunk.chunk_index ∘ fun c =>
        { c with total_chunks := L.length }) = TextChunk.chunk_index := rfl
    have hcomp_id : (TextChunk.chunk_id ∘ fun c =>
        { c with total_chunks := L.length }) = TextChunk.chunk_id := rfl
    refine ⟨?_, ?_, ?_, ?_⟩
    · rw [List.map_map, hcomp_idx, List.length_map, hidx]
    · intro c hc
      rcases List.mem_map.mp hc with ⟨c', _, rfl⟩
      simp
    · intro c hc
      rcases List.mem_map.mp hc with ⟨c', hc', rfl⟩
      simpa using hid c' hc'
    · rw [List.map_map, hcomp_id]
      have hform : L.map TextChunk.chunk_id =
          (L.map TextChunk.chunk_index).map (mkChunkId meta.url) := by
        rw [List.map_map]
        exact List.map_congr_left hid
      rw [hform, hidx]
      exact (List.nodup_range' 1 L.length).map
        (fun a b hab => mkChunkId_right_injective meta.url hab)

/-! ### C6 -/

/-- A document whose h2 precedes its h1. -/
def docBA : List RawHeading := [⟨2, "B".data, none⟩, ⟨1, "A".data, none⟩]

/-- C6 (counterexample): `extract_metadata` iterates level by level
(`for level in range(1, 7)`), so for a document whose `<h2>` precedes its
`<h1>` the extracted list is reordered by level and is not in document
order. -/
theorem c6_counterexample :
    (∀ h ∈ docBA, 1 ≤ h.level ∧ h.level ≤ 6) ∧
    extractHeadings docBA = [⟨1, "A".data, []⟩, ⟨2, "B".data, []⟩] ∧
    docBA.map headingEntry = [⟨2, "B".data, []⟩, ⟨1, "A".data, []⟩] ∧
    extractHeadings docBA ≠ docBA.map headingEntry := by decide

/-- C6 (amended): the headings sequence lists every h1-h6 element, grouped by
level ascending (all h1s, then all h2s, ...), each with its level, trimmed
text and id attribute (empty string if absent); within each level document
order is preserved, but overall document order is not. -/
theorem c6_amended (doc : List RawHeading)
    (hlv : ∀ h ∈ doc, 1 ≤ h.level ∧ h.level ≤ 6) :
    (∀ h ∈ doc, headingEntry h ∈ extractHeadings doc) ∧
    (extractHeadings doc).Pairwise (fun a b => a.level ≤ b.level) ∧
    (∀ lv, (extractHeadings doc).filter (fun x => x.level = lv) =
      (doc.filter (fun h => h.level = lv)).map headingEntry) := by
  refine ⟨?_, ?_, ?_⟩
  · intro h hmem
    unfold extractHeadings
    rw [List.mem_flatMap]
    refine ⟨h.level, ?_,
      List.mem_map_of_mem headingEntry (List.mem_filter.mpr ⟨hmem, by simp⟩)⟩
    rw [List.mem_range'_1]
    have h2 := hlv h hmem
    omega
  · exact blocks_pairwise doc (List.range' 1 6) (List.pairwise_lt_range' 1 6)
  · intro lv
    unfold extractHeadings
    rw [filter_blocks doc lv (List.range' 1 6) (List.nodup_range' 1 6)]
    by_cases hmem : lv ∈ List.range' 1 6
    · rw [if_pos hmem]
    · rw [if_neg hmem]
      have hnil : doc.filter (fun h => h.level = lv) = [] :=
        List.filter_eq_nil_iff.mpr fun h hm => by
          have h2 := hlv h hm
          rw [List.mem_range'_1] at hmem
          simp only [decide_eq_true_eq]
          omega
      rw [hnil, List.map_nil]

/-- A document with a well-ordered h1 (with surrounding whitespace and an id)
followed by an h2. -/
def docW : List RawHeading := [⟨1, " A ".data, some "top".data⟩, ⟨2, "B".data, none⟩]

/-- C6 witness: the amended claim at the concrete document `docW`. -/
theorem c6_amended_witness :
    (∀ h ∈ docW, headingEntry h ∈ extractHeadings docW) ∧
    (extractHeadings docW).Pairwise (fun a b => a.level ≤ b.level) ∧
    (∀ lv, (extractHeadings docW).filter (fun x => x.level = lv) =
      (docW.filter (fun h => h.level = lv)).map headingEntry) :=
  c6_amended docW (by decide)

/-! ### C7 -/

/-- C7 (confirmed): the classifier is a pure function of `(html, url)` (so it
is deterministic by construction), and the URL rule for FAQ takes precedence
over every body-text rule: whenever the lowercased URL contains `"faq"` or
`"frequently-asked"`, the result is `'faq'` for every html body whatsoever. -/
theorem c7_url_faq_precedence (html url : PyStr)
    (h : isSubstr "faq".data (pyLower url) = true ∨
      isSubstr "frequently-asked".data (pyLower url) = true) :
    detectContentType html url = "faq".data := by
  unfold detectContentType
  rcases h with h | h <;> simp [h]

/-- C7 witness: a `/faq/` URL paired with a body full of troubleshooting
phrases is still classified `faq`. -/
theorem c7_url_faq_precedence_witness :
    (isSubstr "faq".data (pyLower "https://example.com/faq/billing".data) = true ∨
      isSubstr "frequently-asked".data
        (pyLower "https://example.com/faq/billing".data) = true) ∧
    detectContentType "<p>error problem issue</p>".data
      "https://example.com/faq/billing".data = "faq".data :=
  ⟨Or.inl (by decide), c7_url_faq_precedence _ _ (Or.inl (by decide))⟩

/-! ### C8 -/

/-- C8 (confirmed): for arbitrary (fallible) pipeline stages and every
`(html, url)` input, `process_content` returns either a success record whose
`total_chunks`, `total_words` and `total_chars` agree with its chunk list and
normalized content, or a failure record carrying the error message and the
source url; a failure raised by any stage is converted, never propagated. -/
theorem c8_pipeline_boundary
    (extractStage : PyStr → PyStr → Except PyStr PageMetadata)
    (cleanStage : PyStr → Except PyStr PyStr)
    (chunkStage : PyStr → PageMetadata → Except PyStr (List TextChunk))
    (html url : PyStr) :
    (∃ md clean chunks,
        processContent extractStage cleanStage chunkStage html url =
          .success md clean chunks chunks.length (splitWs clean).length clean.length) ∨
    (∃ e, processContent extractStage cleanStage chunkStage html url =
        .failure e url) := by
  rcases hex : extractStage html url with e | md
  · exact Or.inr ⟨e, by simp [processContent, hex]⟩
  · rcases hcl : cleanStage html with e | clean
    · exact Or.inr ⟨e, by simp [processContent, hex, hcl]⟩
    · rcases hch : chunkStage clean { md with word_count := (splitWs clean).length }
        with e | chunks
      · exact Or.inr ⟨e, by simp [processContent, hex, hcl, hch]⟩
      · exact Or.inl ⟨{ md with word_count := (splitWs clean).length }, clean, chunks,
          by simp [processContent, hex, hcl, hch]⟩

/-! ### C9 -/

/-- C9 (confirmed): under a valid configuration (`overlap_size < chunk_size`)
the loop start index strictly increases on every iteration, and the loop from
index 0 over a text of `N` words performs at most `N` iterations, so
`create_chunks` terminates. -/
theorem c9_progress_termination (P : ContentProcessor)
    (hov : P.overlap_size < P.chunk_size) (s N : ℕ) :
    s < advance (P.chunk_size / 5) (P.overlap_size / 5) s ∧
    (loopStarts (P.chunk_size / 5) (P.overlap_size / 5) N).length ≤ N :=
  ⟨lt_advance _ _ _, loopStartsGo_length_le _ _ _ N 0⟩

/-- C9 witness: progress and the iteration bound at the default
configuration, start index 0, a 5-word text. -/
theorem c9_progress_termination_witness :
    ({} : ContentProcessor).overlap_size < ({} : ContentProcessor).chunk_size ∧
    (0 < advance (({} : ContentProcessor).chunk_size / 5)
        (({} : ContentProcessor).overlap_size / 5) 0 ∧
      (loopStarts (({} : ContentProcessor).chunk_size / 5)
        (({} : ContentProcessor).overlap_size / 5) 5).length ≤ 5) :=
  ⟨by decide, c9_progress_termination {} (by decide) 0 5⟩

/-! ### C10 -/

/-- C10 (confirmed): whenever `len(content) <= chunk_size`, the single chunk
returned by `create_chunks` has `section_title = None` — for every metadata,
including metadata whose headings would match the chunk's first 200
characters, since heading matching runs only on the multi-chunk path. -/
theorem c10_short_path_no_section_title (P : ContentProcessor) (meta : PageMetadata)
    (T : PyStr) (h : T.length ≤ P.chunk_size) :
    (createChunks P meta T).map TextChunk.section_title = [none] := by
  simp [createChunks, h]

/-- Metadata carrying a heading that textually matches the sample content. -/
def metaWithHeading : PageMetadata :=
  { sampleMeta with headings := [⟨1, "hello".data, []⟩] }

/-- C10 witness: the short path at `"hello world"` with a heading `"hello"`
that the section-title matcher would accept, yet `section_title = none`. -/
theorem c10_short_path_no_section_title_witness :
    "hello world".data.length ≤ ({} : ContentProcessor).chunk_size ∧
    extractSectionTitle "hello world".data metaWithHeading.headings =
      some "hello".data ∧
    (createChunks {} metaWithHeading "hello world".data).map TextChunk.section_title =
      [none] :=
  ⟨by decide, by decide, c10_short_path_no_section_title {} metaWithHeading
    "hello world".data (by decide)⟩

/-- C2 witness: the amended claim at the concrete configuration `procA` and
text `textA`, on the first produced chunk. -/
theorem c2_amended_witness :
    ((createChunks procA sampleMeta textA).get ⟨0, by decide⟩).char_count ≤
        procA.chunk_size ∨
      ((createChunks procA sampleMeta textA).get ⟨0, by decide⟩).word_count ≤ 1 :=
  c2_amended procA sampleMeta textA _ (List.get_mem _ 0 (by decide))

/-- C3 witness: the amended claim at the concrete configuration `procB` and
text `textB`, on the first (non-final) produced chunk. -/
theorem c3_amended_witness :
    procB.min_chunk_size ≤
        ((createChunks procB sampleMeta textB).dropLast.get ⟨0, by decide⟩).char_count ∨
      ((createChunks procB sampleMeta textB).dropLast.get
        ⟨0, by decide⟩).content.getLast? = some '.' :=
  c3_amended procB sampleMeta textB _ (List.get_mem _ 0 (by decide))
